import Mathlib

/-!
Shallow embedding of `src/Tools/FitMotion/fit_motion.py` (the phase-estimation
and Fourier-fitting pipeline) and proofs about the spec's claims on it.

Conventions of the embedding:
* Python floats are modelled by `ℚ` where the code only uses field and floor
  operations, and by `ℝ` where transcendental functions (`math.cos`,
  `math.sin`, `math.radians`) occur; all decimal literals of the source are
  written as exact rationals (`0.6 = 6/10`, `1e-6 = 1/1000000`, ...).
* Python `int(x)` (truncation toward zero) is `pyTrunc`, Python's `%` on
  floats is `pymod`, Python `math.floor` is `⌊·⌋`.
* `while` loops are written as fuel recursion; each such loop strictly
  decreases the quantity used as fuel, so the fuel never runs out on the
  loop's actual inputs.
-/

namespace FitMotion

/-- Python `int(x)` for a float `x`: truncation toward zero. -/
def pyTrunc (x : ℚ) : ℤ := if 0 ≤ x then ⌊x⌋ else ⌈x⌉

/-- Python `a % b` on floats: `a - b * floor (a / b)` (for `b ≠ 0`). -/
def pymod (a b : ℚ) : ℚ := a - b * ⌊a / b⌋

/-- Python `max(list)` (the guards of the source only apply it to nonempty
lists; the empty case of this model returns 0). -/
def maxOf : List ℚ → ℚ
  | [] => 0
  | x :: xs => xs.foldl max x

/-- Fractional part written as the source writes it: `phi - math.floor(phi)`. -/
lemma sub_floor_nonneg_lt_one (x : ℚ) : 0 ≤ x - ⌊x⌋ ∧ x - ⌊x⌋ < 1 :=
  ⟨Int.fract_nonneg x, Int.fract_lt_one x⟩

/-- For a positive modulus, `pymod a b / b` is the fractional part of `a / b`. -/
lemma pymod_div_eq_fract (a b : ℚ) (hb : b ≠ 0) :
    pymod a b / b = Int.fract (a / b) := by
  unfold pymod Int.fract
  field_simp

lemma pymod_div_mem_Ico (a b : ℚ) (hb : 0 < b) :
    0 ≤ pymod a b / b ∧ pymod a b / b < 1 := by
  rw [pymod_div_eq_fract a b hb.ne']
  exact ⟨Int.fract_nonneg _, Int.fract_lt_one _⟩

/-! ## Sample schedule (`fit_fbx_to_fourier`, lines 533-535)

`sample_count = max(2, int(duration * fps))`,
`t_samples = [(i / sample_count) * duration for i in range(sample_count)]`,
`phi = [i / sample_count for i in range(sample_count)]`. -/

/-- Line 533: `sample_count = max(2, int(duration * fps))`. -/
def sampleCount (duration : ℚ) (fps : ℕ) : ℕ :=
  max 2 (pyTrunc (duration * fps)).toNat

/-- Line 534: the sample times `(i / sample_count) * duration`. -/
def tSamplesOf (duration : ℚ) (fps : ℕ) : List ℚ :=
  (List.range (sampleCount duration fps)).map
    (fun (i : ℕ) => ((i : ℚ) / (sampleCount duration fps)) * duration)

/-- Line 535: the normalized-time fallback phase `i / sample_count`. -/
def normalizedPhi (n : ℕ) : List ℚ :=
  (List.range n).map (fun (i : ℕ) => (i : ℚ) / n)

lemma getD_range_map (f : ℕ → ℚ) (n i : ℕ) (h : i < n) :
    ((List.range n).map f).getD i 0 = f i := by
  rw [List.getD_eq_getElem?_getD]
  simp [List.getElem?_map, List.getElem?_range h]

lemma pyTrunc_of_nonneg {x : ℚ} (h : 0 ≤ x) : pyTrunc x = ⌊x⌋ := by
  simp [pyTrunc, h]

/-- C2 (amended): with `d > 0` the sample count is `max 2 ⌊d * fps⌋` (the
source truncates with `int`, it does not round), and the samples are
`t_i = (i / sample_count) * d`, all lying in `[0, d)`. -/
theorem c2_sample_schedule (d : ℚ) (fps : ℕ) (hd : 0 < d) :
    sampleCount d fps = max 2 (Int.toNat ⌊d * (fps : ℚ)⌋) ∧
    (tSamplesOf d fps).length = sampleCount d fps ∧
    ∀ i, i < sampleCount d fps →
      (tSamplesOf d fps).getD i 0 = ((i : ℚ) / (sampleCount d fps)) * d ∧
      0 ≤ (tSamplesOf d fps).getD i 0 ∧
      (tSamplesOf d fps).getD i 0 < d := by
  have hmul : (0 : ℚ) ≤ d * fps := by positivity
  refine ⟨by rw [sampleCount, pyTrunc_of_nonneg hmul],
    by rw [tSamplesOf, List.length_map, List.length_range], ?_⟩
  intro i hi
  have hn : (0 : ℚ) < (sampleCount d fps : ℚ) := by
    have : 0 < sampleCount d fps := lt_of_lt_of_le (by norm_num) (le_max_left _ _)
    exact_mod_cast this
  have hval : (tSamplesOf d fps).getD i 0 = ((i : ℚ) / (sampleCount d fps)) * d := by
    rw [tSamplesOf]; exact getD_range_map _ _ _ hi
  refine ⟨hval, ?_, ?_⟩
  · rw [hval]; positivity
  · rw [hval]
    have hfrac : (i : ℚ) / (sampleCount d fps) < 1 := by
      rw [div_lt_one hn]
      exact_mod_cast hi
    calc (i : ℚ) / (sampleCount d fps) * d < 1 * d := by
          exact mul_lt_mul_of_pos_right hfrac hd
      _ = d := one_mul d

/-- C2 witness: at `d = 1, fps = 3` the schedule has `max 2 3 = 3` samples
and the middle sample equals `(1/3) * 1`. -/
theorem c2_sample_schedule_witness :
    (0 : ℚ) < 1 ∧ sampleCount 1 3 = 3 ∧ (tSamplesOf 1 3).getD 1 0 = (1 : ℚ) / 3 := by
  have hcount : sampleCount 1 3 = 3 := by
    rw [sampleCount, pyTrunc_of_nonneg (by norm_num)]
    norm_num
    decide
  have h := c2_sample_schedule 1 3 (by norm_num)
  refine ⟨by norm_num, hcount, ((h.2.2 1 (by rw [hcount]; norm_num)).1).trans ?_⟩
  rw [hcount]; norm_num

/-- C2 counterexample: at `duration = 2.7, fps = 1` the source computes
`max(2, int(2.7)) = 2` samples while the claim's `max(2, round(2.7))` is 3. -/
theorem c2_counterexample :
    sampleCount (27 / 10) 1 = 2 ∧ max 2 (Int.toNat (round ((27 : ℚ) / 10 * (1 : ℕ)))) = 3 := by
  constructor
  · rw [sampleCount, pyTrunc_of_nonneg (by norm_num)]
    norm_num
  · rw [round_eq]
    norm_num
    decide

/-! ## Stride correction (`fit_fbx_to_fourier`, lines 594-599) -/

/-- The phase selection carried by the pipeline: the phase array, the mode
label, and the cycle duration. -/
structure PhaseSel where
  phi : List ℚ
  mode : String
  cycleDuration : ℚ
deriving DecidableEq

/-- Lines 594-599: when `cycle_duration > 0` and `duration / cycle_duration`
is in `[1.8, 2.2]`, reset `cycle_duration` to `duration`, suffix the mode with
`"_stride"` and recompute `phi` as `(t % cycle_duration) / cycle_duration`. -/
def strideCorrect (duration : ℚ) (tSamples : List ℚ) (sel : PhaseSel) : PhaseSel :=
  if 0 < sel.cycleDuration then
    if 9 / 5 ≤ duration / sel.cycleDuration ∧ duration / sel.cycleDuration ≤ 11 / 5 then
      { phi := tSamples.map (fun t => pymod t duration / duration)
        mode := sel.mode ++ "_stride"
        cycleDuration := duration }
    else sel
  else sel

/-- C4: if the selected `cycle_duration` is positive and
`duration / cycle_duration ∈ [1.8, 2.2]`, the corrected selection has
`cycle_duration = duration`, the mode suffixed `"_stride"`, and the phase
recomputed as `(t mod duration) / duration` at each sample time. -/
theorem c4_stride_correction (d : ℚ) (ts : List ℚ) (sel : PhaseSel)
    (h1 : 0 < sel.cycleDuration)
    (h2 : 9 / 5 ≤ d / sel.cycleDuration)
    (h3 : d / sel.cycleDuration ≤ 11 / 5) :
    (strideCorrect d ts sel).cycleDuration = d ∧
    (strideCorrect d ts sel).mode = sel.mode ++ "_stride" ∧
    (strideCorrect d ts sel).phi = ts.map (fun t => pymod t d / d) := by
  unfold strideCorrect
  rw [if_pos h1, if_pos ⟨h2, h3⟩]
  exact ⟨rfl, rfl, rfl⟩

/-- C4 witness: duration 4, a strategy result with `cycle_duration = 2`
(ratio 2 inside `[1.8, 2.2]`): the correction fires. -/
theorem c4_stride_correction_witness :
    (0 : ℚ) < 2 ∧ 9 / 5 ≤ (4 : ℚ) / 2 ∧ (4 : ℚ) / 2 ≤ 11 / 5 ∧
    (strideCorrect 4 [0, 1, 2, 3] ⟨[0], "left_foot_contact", 2⟩).cycleDuration = 4 ∧
    (strideCorrect 4 [0, 1, 2, 3] ⟨[0], "left_foot_contact", 2⟩).mode =
      "left_foot_contact" ++ "_stride" := by
  have h := c4_stride_correction 4 [0, 1, 2, 3] ⟨[0], "left_foot_contact", 2⟩
    (by norm_num) (by norm_num) (by norm_num)
  exact ⟨by norm_num, by norm_num, by norm_num, h.1, h.2.1⟩

/-! ## Contact-event phase (`compute_phase_from_contacts`, lines 366-404) -/

/-- Python `min(list)` (guarded nonempty in the source; 0 for empty here). -/
def minOf : List ℚ → ℚ
  | [] => 0
  | x :: xs => xs.foldl min x

/-- Mean of a list, `sum / len` (the source only divides nonempty lists). -/
def meanOf (l : List ℚ) : ℚ := l.sum / l.length

/-- Lines 375-380, the loop body: walking the remaining `(time, weight)`
pairs with the previous weight, collect times where `prev < θ ≤ cur`. -/
def risingAux (θ : ℚ) : List ℚ → List ℚ → ℚ → List ℚ
  | t :: ts, w :: ws, prev =>
      if prev < θ ∧ θ ≤ w then t :: risingAux θ ts ws w else risingAux θ ts ws w
  | _, _, _ => []

/-- Lines 374-380: rising-edge events; `prev` starts at `weights[0]` and the
scan runs over indices `1 ..`. -/
def risingEvents (times weights : List ℚ) (θ : ℚ) : List ℚ :=
  match times, weights with
  | _ :: ts, w :: ws => risingAux θ ts ws w
  | _, _ => []

/-- Line 385: `durations[i] = events[i+1] - events[i]`. -/
def adjacentGaps : List ℚ → List ℚ
  | a :: b :: rest => (b - a) :: adjacentGaps (b :: rest)
  | _ => []

/-- Line 389: `skip[i] = events[i+2] - events[i]`. -/
def skipGaps : List ℚ → List ℚ
  | a :: b :: c :: rest => (c - a) :: skipGaps (b :: c :: rest)
  | _ => []

/-- Lines 399-400, the inner `while`: advance `event_index` while the next
event exists and is at or before `t`. Fuel `events.length` bounds the loop:
the index increases by 1 per step and stops at `events.length - 1`. -/
def advanceIdx (events : List ℚ) (t : ℚ) : ℕ → ℕ → ℕ
  | 0, idx => idx
  | fuel + 1, idx =>
      if idx + 1 < events.length ∧ events.getD (idx + 1) 0 ≤ t then
        advanceIdx events t fuel (idx + 1)
      else idx

/-- Lines 396-404: the stateful scan producing, for each sample time, the
fractional part of `(t - events[event_index]) / period`. -/
def phaseScan (events : List ℚ) (period : ℚ) : List ℚ → ℕ → List ℚ
  | [], _ => []
  | t :: ts, idx =>
      let idx2 := advanceIdx events t events.length idx
      let phi := (t - events.getD idx2 0) / period
      (phi - ⌊phi⌋) :: phaseScan events period ts idx2

/-- Lines 366-404: `compute_phase_from_contacts`. -/
def computePhaseFromContacts (times weights : List ℚ) (threshold : ℚ) :
    List ℚ × ℚ :=
  if times = [] ∨ weights = [] then ([], 0)
  else
    let maxW := maxOf weights
    if maxW ≤ 0 then ([], 0)
    else
      let θ := if maxW < threshold then maxW * (6 / 10) else threshold
      let events := risingEvents times weights θ
      if events.length < 2 then ([], 0)
      else
        let avgAdj := meanOf (adjacentGaps events)
        let avgPeriod :=
          if 3 ≤ events.length then
            if avgAdj * (15 / 10) < meanOf (skipGaps events) then
              meanOf (skipGaps events)
            else avgAdj
          else avgAdj
        if avgPeriod ≤ 0 then ([], 0)
        else (phaseScan events avgPeriod times 0, avgPeriod)

/-- Lines 427-448: `compute_phase_from_events` (same period and phase
derivation, events supplied by the caller). -/
def computePhaseFromEvents (times events : List ℚ) : List ℚ × ℚ :=
  if events.length < 2 then ([], 0)
  else
    let avgAdj := meanOf (adjacentGaps events)
    let avgPeriod :=
      if 3 ≤ events.length then
        if avgAdj * (15 / 10) < meanOf (skipGaps events) then
          meanOf (skipGaps events)
        else avgAdj
      else avgAdj
    if avgPeriod ≤ 0 then ([], 0)
    else (phaseScan events avgPeriod times 0, avgPeriod)

/-- Lines 418-423, loop body of `detect_minima_events`: walk the value triples
`(values[i-1], values[i], values[i+1])` with `times[i]`, carrying `last_t`. -/
def minimaAux (thr minSpacing : ℚ) : List ℚ → List ℚ → ℚ → List ℚ
  | tcur :: trest, vprev :: vcur :: vnext :: vrest, lastT =>
      if vcur ≤ vprev ∧ vcur ≤ vnext ∧ vcur ≤ thr then
        if minSpacing ≤ tcur - lastT then
          tcur :: minimaAux thr minSpacing trest (vcur :: vnext :: vrest) tcur
        else minimaAux thr minSpacing trest (vcur :: vnext :: vrest) lastT
      else minimaAux thr minSpacing trest (vcur :: vnext :: vrest) lastT
  | _, _, _ => []

/-- Lines 407-424: `detect_minima_events`. -/
def detectMinimaEvents (times values : List ℚ) : List ℚ :=
  if values.length < 3 then []
  else
    let vMin := minOf values
    let vMax := maxOf values
    if vMax - vMin ≤ 1 / 10000 then []
    else
      let thr := vMin + (vMax - vMin) * (25 / 100)
      let minSpacing := (times.getLastD 0 - times.headD 0) / (max times.length 1) * 10
      minimaAux thr minSpacing times.tail values (-(10 ^ 9))

/-! ## Autocorrelation phase (`compute_phase_from_autocorr`, lines 451-495) -/

/-- Python `max` over a list of naturals (0 for the empty list). -/
def natMaxOf : List ℕ → ℕ
  | [] => 0
  | x :: xs => xs.foldl max x

/-- Lines 470-475: the unnormalized autocorrelation sum at a given lag. -/
def autocorrAt (centered : List ℚ) (lag : ℕ) : ℚ :=
  ((List.range (centered.length - lag)).map
    (fun (i : ℕ) => centered.getD i 0 * centered.getD (i + lag) 0)).sum

/-- Lines 467-483: the best-lag selection: track the first maximal
correlation, then prefer the largest lag whose correlation reaches 90% of the
best. -/
def bestLagOf (corrTable : List (ℕ × ℚ)) : ℕ :=
  let best := corrTable.foldl
    (fun (b : ℕ × ℚ) p => if b.2 < p.2 then (p.1, p.2) else b) (0, -(10 ^ 9))
  if corrTable ≠ [] then
    let preferred := (corrTable.filter
      (fun p => best.2 * (9 / 10) ≤ p.2)).map Prod.fst
    if preferred ≠ [] then natMaxOf preferred else best.1
  else best.1

/-- Lines 487-495: the final period guard and phase map of
`compute_phase_from_autocorr`. -/
def autocorrPhase (times : List ℚ) (period : ℚ) : List ℚ × ℚ :=
  if period ≤ 0 then ([], 0)
  else (times.map (fun t => pymod (t - times.headD 0) period / period), period)

/-- Lines 451-495: `compute_phase_from_autocorr`. -/
def computePhaseFromAutocorr (times values : List ℚ) : List ℚ × ℚ :=
  if times.length < 4 ∨ values.length ≠ times.length then ([], 0)
  else
    let duration := times.getLastD 0 - times.headD 0
    if duration ≤ 0 then ([], 0)
    else
      let n := values.length
      let mean := values.sum / n
      let centered := values.map (fun v => v - mean)
      let var := (centered.map (fun v => v * v)).sum
      if var ≤ 1 / 1000000 then ([], 0)
      else
        let dt := duration / n
        let minLag := max 2 (pyTrunc ((2 / 10) / max dt (1 / 1000000))).toNat
        let maxLag := min (n - 2) (pyTrunc ((9 / 10) * n)).toNat
        let bestLag := bestLagOf ((List.range' minLag (maxLag + 1 - minLag)).map
          (fun (lag : ℕ) => (lag, autocorrAt centered lag)))
        if bestLag = 0 then ([], 0)
        else autocorrPhase times ((bestLag : ℚ) * dt)

/-- C6: the autocorrelation strategy returns the empty result when the
mean-centered signal's summed squared deviation is at most `1e-6`, and when
the spanned duration `times[-1] - times[0]` is nonpositive. -/
theorem c6_autocorr_degenerate_guards (times values : List ℚ) :
    (((values.map (fun v => v - values.sum / values.length)).map
        (fun v => v * v)).sum ≤ 1 / 1000000 →
      computePhaseFromAutocorr times values = ([], 0)) ∧
    (times.getLastD 0 - times.headD 0 ≤ 0 →
      computePhaseFromAutocorr times values = ([], 0)) := by
  constructor
  · intro h
    simp only [computePhaseFromAutocorr]
    split_ifs with h1 h2 h3 <;> first | rfl | exact absurd h h3
  · intro h
    simp only [computePhaseFromAutocorr]
    split_ifs with h1 h2 h3 <;> first | rfl | exact absurd h h2

/-- C6 witness: a constant signal over a positive span hits the variance
guard, and a reversed span hits the duration guard. -/
theorem c6_autocorr_degenerate_guards_witness :
    (([(5 : ℚ), 5, 5, 5].map
        (fun v => v - [(5 : ℚ), 5, 5, 5].sum / ([(5 : ℚ), 5, 5, 5] : List ℚ).length)).map
        (fun v => v * v)).sum ≤ 1 / 1000000 ∧
    computePhaseFromAutocorr [0, 1, 2, 3] [5, 5, 5, 5] = ([], 0) := by
  have hvar : (([(5 : ℚ), 5, 5, 5].map
      (fun v => v - [(5 : ℚ), 5, 5, 5].sum / ([(5 : ℚ), 5, 5, 5] : List ℚ).length)).map
      (fun v => v * v)).sum ≤ 1 / 1000000 := by norm_num
  exact ⟨hvar, (c6_autocorr_degenerate_guards [0, 1, 2, 3] [5, 5, 5, 5]).1 hvar⟩

/-- C5: for the contact-event strategy at its default threshold `0.5`: events
are rising edges against `0.6 * max(signal)` when `max(signal) < 0.5` and
against `0.5` otherwise; fewer than 2 events give the empty result; and a
nonempty result's period is the adjacent-gap mean, replaced by the
every-other-event mean when there are at least 3 events and that mean exceeds
1.5 times the adjacent mean. -/
theorem c5_contact_event_rules (times weights : List ℚ) :
    ((risingEvents times weights
        (if maxOf weights < 1 / 2 then maxOf weights * (6 / 10) else 1 / 2)).length < 2 →
      computePhaseFromContacts times weights (1 / 2) = ([], 0)) ∧
    ((computePhaseFromContacts times weights (1 / 2)).1 ≠ [] →
      (computePhaseFromContacts times weights (1 / 2)).2 =
        (let events := risingEvents times weights
            (if maxOf weights < 1 / 2 then maxOf weights * (6 / 10) else 1 / 2)
         if 3 ≤ events.length ∧
             meanOf (adjacentGaps events) * (15 / 10) < meanOf (skipGaps events) then
           meanOf (skipGaps events)
         else meanOf (adjacentGaps events))) := by
  constructor
  · intro h
    simp only [computePhaseFromContacts]
    split_ifs with h1 h2 h3 <;> first | rfl | exact absurd h h3
  · intro h
    simp only [computePhaseFromContacts] at h ⊢
    split_ifs at h ⊢ <;> first | exact absurd rfl h | rfl | tauto

/-- C5 witness: weights `[0,1,0,1,0,1]` over times `[0..5]` give the three
events `[1,3,5]`; the every-other mean `4` exceeds `1.5 * 2`, so the period
is `4`. -/
theorem c5_contact_event_rules_witness :
    (computePhaseFromContacts [0, 1, 2, 3, 4, 5] [0, 1, 0, 1, 0, 1] (1 / 2)).1 ≠ [] ∧
    (computePhaseFromContacts [0, 1, 2, 3, 4, 5] [0, 1, 0, 1, 0, 1] (1 / 2)).2 = 4 := by
  have hev : risingEvents [0, 1, 2, 3, 4, 5] [0, 1, 0, 1, 0, 1]
      (if maxOf [0, 1, 0, 1, 0, 1] < 1 / 2 then maxOf [0, 1, 0, 1, 0, 1] * (6 / 10)
       else 1 / 2) = [1, 3, 5] := by
    norm_num [risingEvents, risingAux, maxOf]
  have hne : (computePhaseFromContacts [0, 1, 2, 3, 4, 5] [0, 1, 0, 1, 0, 1] (1 / 2)).1 ≠ [] := by
    norm_num [computePhaseFromContacts, risingEvents, risingAux, maxOf, meanOf,
      adjacentGaps, skipGaps, phaseScan, advanceIdx]
    rw [if_neg (by simp)]
    simp
  have h := (c5_contact_event_rules [0, 1, 2, 3, 4, 5] [0, 1, 0, 1, 0, 1]).2 hne
  refine ⟨hne, h.trans ?_⟩
  rw [hev]
  norm_num [meanOf, adjacentGaps, skipGaps]

/-! ## Phase range (C8) -/

lemma phaseScan_mem_range (events : List ℚ) (period : ℚ) :
    ∀ (ts : List ℚ) (idx : ℕ) (φ : ℚ), φ ∈ phaseScan events period ts idx →
      0 ≤ φ ∧ φ < 1 := by
  intro ts
  induction ts with
  | nil => intro idx φ h; simp [phaseScan] at h
  | cons t rest ih =>
    intro idx φ h
    simp only [phaseScan, List.mem_cons] at h
    rcases h with rfl | h
    · exact sub_floor_nonneg_lt_one _
    · exact ih _ _ h

/-- C8: every phase value produced by the contact-event strategy, the
event-list strategy (minima events), the autocorrelation strategy, the
normalized-time fallback, and the stride-correction recomputation lies in
`[0, 1)` (the stride conjunct: for positive clip duration, the correction
either leaves the phase array alone or every recomputed value is in
`[0, 1)`). -/
theorem c8_phase_values_in_unit_interval :
    (∀ times weights θ φ, φ ∈ (computePhaseFromContacts times weights θ).1 →
      0 ≤ φ ∧ φ < 1) ∧
    (∀ times events φ, φ ∈ (computePhaseFromEvents times events).1 →
      0 ≤ φ ∧ φ < 1) ∧
    (∀ times values φ, φ ∈ (computePhaseFromAutocorr times values).1 →
      0 ≤ φ ∧ φ < 1) ∧
    (∀ n φ, φ ∈ normalizedPhi n → 0 ≤ φ ∧ φ < 1) ∧
    (∀ d ts sel, 0 < d → (strideCorrect d ts sel).phi = sel.phi ∨
      ∀ φ ∈ (strideCorrect d ts sel).phi, 0 ≤ φ ∧ φ < 1) := by
  refine ⟨?_, ?_, ?_, ?_, ?_⟩
  · intro times weights θ φ h
    simp only [computePhaseFromContacts] at h
    split_ifs at h <;> first | exact phaseScan_mem_range _ _ _ _ _ h | simp at h
  · intro times events φ h
    simp only [computePhaseFromEvents] at h
    split_ifs at h <;> first | exact phaseScan_mem_range _ _ _ _ _ h | simp at h
  · intro times values φ h
    have hph : ∀ (p : ℚ), φ ∈ (autocorrPhase times p).1 → 0 ≤ φ ∧ φ < 1 := by
      intro p hp
      simp only [autocorrPhase] at hp
      split_ifs at hp with hple
      · simp at hp
      · obtain ⟨t, -, rfl⟩ := List.mem_map.mp hp
        exact pymod_div_mem_Ico _ _ (not_le.mp hple)
    simp only [computePhaseFromAutocorr] at h
    split_ifs at h <;> first | exact hph _ h | simp at h
  · intro n φ h
    simp only [normalizedPhi, List.mem_map, List.mem_range] at h
    obtain ⟨i, hi, rfl⟩ := h
    have hn : (0 : ℚ) < n := by exact_mod_cast Nat.lt_of_le_of_lt (Nat.zero_le i) hi
    constructor
    · positivity
    · rw [div_lt_one hn]; exact_mod_cast hi
  · intro d ts sel hd
    unfold strideCorrect
    split_ifs
    · right
      intro φ hφ
      simp only [List.mem_map] at hφ
      obtain ⟨t, -, rfl⟩ := hφ
      exact pymod_div_mem_Ico _ _ hd
    · left; rfl
    · left; rfl

/-- C8 witness: the third normalized-time phase value at `n = 4` is `2/4`,
and it lies in `[0, 1)` by the theorem. -/
theorem c8_phase_values_in_unit_interval_witness :
    ((2 : ℚ) / 4 ∈ normalizedPhi 4) ∧ (0 ≤ (2 : ℚ) / 4 ∧ (2 : ℚ) / 4 < 1) := by
  have hmem : (2 : ℚ) / 4 ∈ normalizedPhi 4 := by
    norm_num [normalizedPhi, List.range_succ]
  exact ⟨hmem, c8_phase_values_in_unit_interval.2.2.2.1 4 ((2 : ℚ) / 4) hmem⟩

/-! ## AnimationCurve sampling (`AnimationCurve.sample`, lines 13-40) -/

/-- Lines 13-17: an animation curve: parallel key time/value arrays and a
default used when the curve is degenerate. The scalar type is a parameter so
the same class serves the rational phase development and the real-valued
kinematics evaluator. -/
structure AnimationCurve (R : Type) where
  times : List R
  values : List R
  defaultValue : R
deriving DecidableEq

/-- Lines 26-33, the bisection loop. Fuel bounds the iteration count:
`hi - lo` strictly decreases each step, so fuel `hi - lo` never runs out. -/
def bisectGo {R : Type} [LinearOrderedField R] (times : List R) (t : R) :
    ℕ → ℕ → ℕ → ℕ × ℕ
  | 0, lo, hi => (lo, hi)
  | fuel + 1, lo, hi =>
      if 1 < hi - lo then
        if times.getD ((lo + hi) / 2) 0 ≤ t then bisectGo times t fuel ((lo + hi) / 2) hi
        else bisectGo times t fuel lo ((lo + hi) / 2)
      else (lo, hi)

/-- The `lo = 0, hi = len(times) - 1` bisection of lines 26-33. -/
def bisect {R : Type} [LinearOrderedField R] (times : List R) (t : R) (lo hi : ℕ) :
    ℕ × ℕ :=
  bisectGo times t (hi - lo) lo hi

/-- Lines 19-40: `AnimationCurve.sample`. -/
def AnimationCurve.sample {R : Type} [LinearOrderedField R] (c : AnimationCurve R)
    (t : R) : R :=
  if c.times = [] ∨ c.times.length ≠ c.values.length then c.defaultValue
  else if t ≤ c.times.headD 0 then c.values.headD 0
  else if c.times.getLastD 0 ≤ t then c.values.getLastD 0
  else
    let lohi := bisect c.times t 0 (c.times.length - 1)
    let t0 := c.times.getD lohi.1 0
    let t1 := c.times.getD lohi.2 0
    let v0 := c.values.getD lohi.1 0
    let v1 := c.values.getD lohi.2 0
    let span := max (t1 - t0) (1 / 1000000)
    v0 + (v1 - v0) * ((t - t0) / span)

/-- Bracketing invariant of the bisection loop: starting from a bracket
`times[lo] ≤ t < times[hi]` with `lo < hi < len` and enough fuel, the loop
returns an adjacent pair `(r, r+1)` inside the original bracket that still
brackets `t`. -/
lemma bisectGo_spec (times : List ℚ) (t : ℚ) :
    ∀ (fuel lo hi : ℕ), hi - lo ≤ fuel → lo < hi → hi < times.length →
      times.getD lo 0 ≤ t → t < times.getD hi 0 →
      lo ≤ (bisectGo times t fuel lo hi).1 ∧
      (bisectGo times t fuel lo hi).2 ≤ hi ∧
      (bisectGo times t fuel lo hi).2 = (bisectGo times t fuel lo hi).1 + 1 ∧
      times.getD (bisectGo times t fuel lo hi).1 0 ≤ t ∧
      t < times.getD (bisectGo times t fuel lo hi).2 0 := by
  intro fuel
  induction fuel with
  | zero => intro lo hi hfuel hlt _ _ _; omega
  | succ fuel ih =>
    intro lo hi hfuel hlt hhi hlow hhigh
    simp only [bisectGo]
    split_ifs with hgap hmid
    · have h := ih ((lo + hi) / 2) hi (by omega) (by omega) hhi hmid hhigh
      exact ⟨le_trans (by omega) h.1, h.2.1, h.2.2.1, h.2.2.2.1, h.2.2.2.2⟩
    · have h := ih lo ((lo + hi) / 2) (by omega) (by omega) (by omega) hlow
        (not_le.mp hmid)
      exact ⟨h.1, le_trans h.2.1 (by omega), h.2.2.1, h.2.2.2.1, h.2.2.2.2⟩
    · exact ⟨le_refl lo, le_refl hi, by omega, hlow, hhigh⟩

lemma pairwise_getD_lt (l : List ℚ) (h : l.Pairwise (· < ·)) {i j : ℕ}
    (hij : i < j) (hj : j < l.length) : l.getD i 0 < l.getD j 0 := by
  have hi : i < l.length := lt_trans hij hj
  rw [List.getD_eq_getElem l 0 hi, List.getD_eq_getElem l 0 hj]
  exact (List.pairwise_iff_get.mp h) ⟨i, hi⟩ ⟨j, hj⟩ hij

lemma pairwise_getD_le (l : List ℚ) (h : l.Pairwise (· < ·)) {i j : ℕ}
    (hij : i ≤ j) (hj : j < l.length) : l.getD i 0 ≤ l.getD j 0 := by
  rcases Nat.lt_or_ge i j with hlt | hge
  · exact le_of_lt (pairwise_getD_lt l h hlt hj)
  · have : i = j := by omega
    rw [this]

/-- With strictly increasing keys, the index whose key interval contains `t`
half-openly is unique (one bracket may be closed-open, the other open-open). -/
lemma bracket_unique (l : List ℚ) (h : l.Pairwise (· < ·)) (i j : ℕ) (t : ℚ)
    (hi : i + 1 < l.length) (hj : j + 1 < l.length)
    (h1 : l.getD i 0 ≤ t) (h2 : t < l.getD (i + 1) 0)
    (h3 : l.getD j 0 < t) (h4 : t < l.getD (j + 1) 0) : i = j := by
  by_contra hne
  rcases Nat.lt_or_ge i j with hij | hij
  · have hle : l.getD (i + 1) 0 ≤ l.getD j 0 :=
      pairwise_getD_le l h (by omega) (by omega)
    linarith
  · have hji : j < i := by omega
    have hle : l.getD (j + 1) 0 ≤ l.getD i 0 :=
      pairwise_getD_le l h (by omega) (by omega)
    linarith

lemma headD_eq_getD (l : List ℚ) (d : ℚ) : l.headD d = l.getD 0 d := by
  cases l <;> simp [List.headD, List.getD]

lemma getLastD_eq_getD (l : List ℚ) (d : ℚ) :
    l.getLastD d = l.getD (l.length - 1) d := by
  simp [List.getLastD_eq_getLast?, List.getLast?_eq_getElem?, List.getD_eq_getElem?_getD]

/-- C7 (amended): for strictly increasing times with matching value count,
`sample` clamps to the first value for `t ≤ times[0]` and to the last value
for `t ≥ times[-1]`; for `t` strictly inside an adjacent key pair the result
lies between the two key values always, and equals their exact linear
interpolation whenever the key gap is at least `1e-6` (the source clamps the
interpolation denominator to `1e-6`, so narrower gaps are interpolated
against the clamped span instead). -/
theorem c7_sample_boundaries_and_interpolation (c : AnimationCurve ℚ)
    (hinc : c.times.Pairwise (· < ·))
    (hlen : c.times.length = c.values.length)
    (hne : c.times ≠ []) :
    (∀ t, t ≤ c.times.headD 0 → c.sample t = c.values.headD 0) ∧
    (∀ t, c.times.getLastD 0 ≤ t → c.sample t = c.values.getLastD 0) ∧
    (∀ t j, j + 1 < c.times.length →
      c.times.getD j 0 < t → t < c.times.getD (j + 1) 0 →
      (min (c.values.getD j 0) (c.values.getD (j + 1) 0) ≤ c.sample t ∧
       c.sample t ≤ max (c.values.getD j 0) (c.values.getD (j + 1) 0)) ∧
      (1 / 1000000 ≤ c.times.getD (j + 1) 0 - c.times.getD j 0 →
        c.sample t = c.values.getD j 0 +
          (c.values.getD (j + 1) 0 - c.values.getD j 0) *
            ((t - c.times.getD j 0) /
              (c.times.getD (j + 1) 0 - c.times.getD j 0)))) := by
  have hguard : ¬(c.times = [] ∨ c.times.length ≠ c.values.length) := by
    push_neg; exact ⟨hne, hlen⟩
  have hpos : 0 < c.times.length := List.length_pos.mpr hne
  refine ⟨?_, ?_, ?_⟩
  · intro t ht
    unfold AnimationCurve.sample
    rw [if_neg hguard, if_pos ht]
  · intro t ht
    unfold AnimationCurve.sample
    rw [if_neg hguard]
    by_cases hth : t ≤ c.times.headD 0
    · rw [if_pos hth]
      have hn1 : c.times.length = 1 := by
        by_contra hn1
        have h2 : 2 ≤ c.times.length := by omega
        have hlt : c.times.getD 0 0 < c.times.getD (c.times.length - 1) 0 :=
          pairwise_getD_lt c.times hinc (by omega) (by omega)
        rw [headD_eq_getD] at hth
        rw [getLastD_eq_getD] at ht
        linarith
      rw [headD_eq_getD, getLastD_eq_getD, ← hlen, hn1]
    · rw [if_neg hth, if_pos ht]
  · intro t j hj1 hjt htj
    have hth : ¬ t ≤ c.times.headD 0 := by
      rw [headD_eq_getD]
      push_neg
      calc c.times.getD 0 0 ≤ c.times.getD j 0 :=
            pairwise_getD_le c.times hinc (Nat.zero_le j) (by omega)
        _ < t := hjt
    have htl : ¬ c.times.getLastD 0 ≤ t := by
      rw [getLastD_eq_getD]
      push_neg
      calc t < c.times.getD (j + 1) 0 := htj
        _ ≤ c.times.getD (c.times.length - 1) 0 :=
            pairwise_getD_le c.times hinc (by omega) (by omega)
    have hspec := bisectGo_spec c.times t (c.times.length - 1 - 0) 0
      (c.times.length - 1) (le_refl _) (by omega) (by omega)
      (by rw [headD_eq_getD] at hth; exact le_of_lt (not_le.mp hth))
      (by rw [getLastD_eq_getD] at htl; exact not_le.mp htl)
    have hspec2 : 0 ≤ (bisect c.times t 0 (c.times.length - 1)).1 ∧
        (bisect c.times t 0 (c.times.length - 1)).2 ≤ c.times.length - 1 ∧
        (bisect c.times t 0 (c.times.length - 1)).2 =
          (bisect c.times t 0 (c.times.length - 1)).1 + 1 ∧
        c.times.getD (bisect c.times t 0 (c.times.length - 1)).1 0 ≤ t ∧
        t < c.times.getD (bisect c.times t 0 (c.times.length - 1)).2 0 := hspec
    have hr2 : (bisect c.times t 0 (c.times.length - 1)).2 =
        (bisect c.times t 0 (c.times.length - 1)).1 + 1 := hspec2.2.2.1
    have hr1j : (bisect c.times t 0 (c.times.length - 1)).1 = j := by
      apply bracket_unique c.times hinc _ j t _ hj1 _ _ hjt htj
      · rw [← hr2]
        have := hspec2.2.1
        omega
      · exact hspec2.2.2.2.1
      · rw [← hr2]
        exact hspec2.2.2.2.2
    have hbis : bisect c.times t 0 (c.times.length - 1) = (j, j + 1) := by
      rw [Prod.ext_iff]
      exact ⟨hr1j, by rw [hr2, hr1j]⟩
    have hsample : c.sample t = c.values.getD j 0 +
        (c.values.getD (j + 1) 0 - c.values.getD j 0) *
          ((t - c.times.getD j 0) /
            max (c.times.getD (j + 1) 0 - c.times.getD j 0) (1 / 1000000)) := by
      unfold AnimationCurve.sample
      rw [if_neg hguard, if_neg hth, if_neg htl]
      simp only [bisect] at hbis
      simp only [bisect, hbis]
    have hspan : (0 : ℚ) < max (c.times.getD (j + 1) 0 - c.times.getD j 0)
        (1 / 1000000) := lt_max_of_lt_right (by norm_num)
    have ha0 : 0 ≤ (t - c.times.getD j 0) /
        max (c.times.getD (j + 1) 0 - c.times.getD j 0) (1 / 1000000) :=
      div_nonneg (by linarith) (le_of_lt hspan)
    have ha1 : (t - c.times.getD j 0) /
        max (c.times.getD (j + 1) 0 - c.times.getD j 0) (1 / 1000000) ≤ 1 := by
      rw [div_le_one hspan]
      calc t - c.times.getD j 0 ≤ c.times.getD (j + 1) 0 - c.times.getD j 0 := by
            linarith
        _ ≤ max (c.times.getD (j + 1) 0 - c.times.getD j 0) (1 / 1000000) :=
            le_max_left _ _
    constructor
    · rw [hsample]
      rcases le_total (c.values.getD j 0) (c.values.getD (j + 1) 0) with hv | hv
      · rw [min_eq_left hv, max_eq_right hv]
        constructor
        · nlinarith
        · nlinarith
      · rw [min_eq_right hv, max_eq_left hv]
        constructor
        · nlinarith
        · nlinarith
    · intro hgap
      rw [hsample, max_eq_left hgap]

/-- C7 counterexample: for a key gap below the `1e-6` clamp, `sample` is not
the linear interpolation of the surrounding key values: at keys
`(0, 0), (1e-7, 1)` and `t = 5e-8` the exact midpoint interpolation is `1/2`
but the source returns `(5e-8) / 1e-6 = 1/20`. -/
theorem c7_counterexample :
    (AnimationCurve.mk ([0, 1 / 10000000] : List ℚ) [0, 1] 0).sample (1 / 20000000) = 1 / 20 ∧
    (0 : ℚ) + (1 - 0) * ((1 / 20000000 - 0) / ((1 : ℚ) / 10000000 - 0)) = 1 / 2 ∧
    ((1 : ℚ) / 20) ≠ 1 / 2 := by
  refine ⟨?_, by norm_num, by norm_num⟩
  rw [AnimationCurve.sample]
  rw [if_neg (by simp)]
  norm_num [bisect, bisectGo, List.getLastD]

/-- C7 witness: the spec's Example 1 run through the amended theorem: the
curve `times = [0,1,2]`, `values = [0,10,0]` gives `sample 0.5 = 5`,
`sample 1.5 = 5`, `sample (-1) = 0`, `sample 3 = 0`. -/
theorem c7_sample_boundaries_and_interpolation_witness :
    (AnimationCurve.mk ([0, 1, 2] : List ℚ) [0, 10, 0] 0).sample (1 / 2) = 5 ∧
    (AnimationCurve.mk ([0, 1, 2] : List ℚ) [0, 10, 0] 0).sample (3 / 2) = 5 ∧
    (AnimationCurve.mk ([0, 1, 2] : List ℚ) [0, 10, 0] 0).sample (-1) = 0 ∧
    (AnimationCurve.mk ([0, 1, 2] : List ℚ) [0, 10, 0] 0).sample 3 = 0 := by
  have h := c7_sample_boundaries_and_interpolation
    (AnimationCurve.mk ([0, 1, 2] : List ℚ) [0, 10, 0] 0)
    (by norm_num [List.pairwise_cons]) (by norm_num) (by simp)
  refine ⟨?_, ?_, ?_, ?_⟩
  · have h1 := ((h.2.2 (1 / 2) 0 (by norm_num) (by norm_num [List.getD])
      (by norm_num [List.getD])).2 (by norm_num [List.getD]))
    rw [h1]
    norm_num [List.getD]
  · have h1 := ((h.2.2 (3 / 2) 1 (by norm_num) (by norm_num [List.getD])
      (by norm_num [List.getD])).2 (by norm_num [List.getD]))
    rw [h1]
    norm_num [List.getD]
  · have h1 := h.1 (-1) (by norm_num)
    rw [h1]
    norm_num
  · have h1 := h.2.1 3 (by norm_num [List.getLastD])
    rw [h1]
    norm_num [List.getLastD]

/-! ## Fourier fitting (`fit_fourier`, lines 497-515) -/

/-- Lines 497-515: `fit_fourier`. Empty input returns `1 + 2*order` zeros;
otherwise `a0 = mean(values)` followed by, for each harmonic `k = 1..order`,
`ak = (2/N) * sum v_i cos(2 pi k phi_i)` and `bk = (2/N) * sum v_i sin(...)`. -/
noncomputable def fitFourier (phi values : List ℝ) (order : ℕ) : List ℝ :=
  if phi.length = 0 then List.replicate (1 + order * 2) 0
  else
    let count : ℝ := phi.length
    let a0 := values.sum / count
    a0 :: (List.range order).flatMap (fun (j : ℕ) =>
      let freq := 2 * Real.pi * (j + 1)
      let cosSum := ((phi.zip values).map
        (fun pv => pv.2 * Real.cos (freq * pv.1))).sum
      let sinSum := ((phi.zip values).map
        (fun pv => pv.2 * Real.sin (freq * pv.1))).sum
      [cosSum * (2 / count), sinSum * (2 / count)])

/-- The normalized-time phase grid (`fit_fbx_to_fourier` line 535), over the
reals used by the fitter. -/
noncomputable def uniformPhaseGrid (n : ℕ) : List ℝ :=
  (List.range n).map (fun (i : ℕ) => (i : ℝ) / n)

/-- C10: applied to empty phase and value arrays, `fit_fourier` returns the
all-zero coefficient array of length exactly `1 + 2k`. -/
theorem c10_fit_fourier_empty_arrays (k : ℕ) :
    fitFourier [] [] k = List.replicate (1 + 2 * k) 0 ∧
    (fitFourier [] [] k).length = 1 + 2 * k := by
  have h1 : fitFourier [] [] k = List.replicate (1 + k * 2) 0 := by
    simp [fitFourier]
  rw [h1, Nat.mul_comm k 2]
  exact ⟨rfl, List.length_replicate _ _⟩

lemma list_range_map_sum {M : Type} [AddCommMonoid M] (f : ℕ → M) (n : ℕ) :
    ((List.range n).map f).sum = ∑ i ∈ Finset.range n, f i := by
  induction n with
  | zero => simp
  | succ n ih =>
    rw [List.range_succ, List.map_append, List.sum_append, Finset.sum_range_succ, ih]
    simp

/-- Sums of the real and imaginary parts of the `N`-th roots of unity at a
harmonic `m` with `0 < m < N` vanish. -/
lemma sum_cos_sin_grid_eq_zero (N m : ℕ) (h0 : 0 < m) (hm : m < N) :
    (∑ i ∈ Finset.range N, Real.cos (2 * Real.pi * m * ((i : ℝ) / N)) = 0) ∧
    (∑ i ∈ Finset.range N, Real.sin (2 * Real.pi * m * ((i : ℝ) / N)) = 0) := by
  have hN : (0 : ℝ) < N := by
    have : 0 < N := lt_trans h0 hm
    exact_mod_cast this
  set θ : ℝ := 2 * Real.pi * m / N with hθ
  set z : ℂ := Complex.exp (θ * Complex.I) with hz
  have hzN : z ^ N = 1 := by
    rw [hz, ← Complex.exp_nat_mul]
    have harg : (N : ℂ) * ((θ : ℝ) * Complex.I) =
        ((m : ℤ) : ℂ) * (2 * Real.pi * Complex.I) := by
      rw [hθ]
      push_cast
      have hNne : (N : ℂ) ≠ 0 := by exact_mod_cast ne_of_gt hN
      field_simp
      ring
    rw [harg]
    exact Complex.exp_int_mul_two_pi_mul_I m
  have hz1 : z ≠ 1 := by
    rw [hz]
    intro hcontra
    rw [Complex.exp_eq_one_iff] at hcontra
    obtain ⟨n, hn⟩ := hcontra
    have hI : ((θ : ℝ) : ℂ) = (n : ℂ) * (2 * (Real.pi : ℂ)) := by
      apply mul_right_cancel₀ Complex.I_ne_zero
      rw [hn]
      ring
    have hR : θ = (n : ℝ) * (2 * Real.pi) := by exact_mod_cast hI
    have hNne : (N : ℝ) ≠ 0 := ne_of_gt hN
    rw [hθ, div_eq_iff hNne] at hR
    have hmn : (m : ℝ) = (n : ℝ) * N := by
      have h2π : (2 * Real.pi) ≠ 0 := by positivity
      apply mul_left_cancel₀ h2π
      ring_nf
      ring_nf at hR
      linarith
    have hmn2 : (m : ℤ) = n * N := by exact_mod_cast hmn
    rcases le_or_lt n 0 with hn0 | hn0
    · have hle : (m : ℤ) ≤ 0 := by
        rw [hmn2]
        exact mul_nonpos_of_nonpos_of_nonneg hn0 (by positivity)
      omega
    · have hge : (N : ℤ) ≤ m := by
        rw [hmn2]
        nlinarith
      omega
  have hsum : ∑ i ∈ Finset.range N, z ^ i = 0 := by
    rw [geom_sum_eq hz1, hzN, sub_self, zero_div]
  have hzi : ∀ i : ℕ, z ^ i = Complex.exp (((i : ℝ) * θ : ℝ) * Complex.I) := by
    intro i
    rw [hz, ← Complex.exp_nat_mul]
    congr 1
    push_cast
    ring
  have hangle : ∀ i : ℕ, 2 * Real.pi * m * ((i : ℝ) / N) = (i : ℝ) * θ := by
    intro i
    rw [hθ]
    field_simp
    ring
  constructor
  · calc ∑ i ∈ Finset.range N, Real.cos (2 * Real.pi * m * ((i : ℝ) / N))
        = ∑ i ∈ Finset.range N, (z ^ i).re :=
          Finset.sum_congr rfl (fun i _ => by
            rw [hzi i, Complex.exp_ofReal_mul_I_re, hangle i])
      _ = (∑ i ∈ Finset.range N, z ^ i).re := (Complex.re_sum _ _).symm
      _ = 0 := by rw [hsum]; rfl
  · calc ∑ i ∈ Finset.range N, Real.sin (2 * Real.pi * m * ((i : ℝ) / N))
        = ∑ i ∈ Finset.range N, (z ^ i).im :=
          Finset.sum_congr rfl (fun i _ => by
            rw [hzi i, Complex.exp_ofReal_mul_I_im, hangle i])
      _ = (∑ i ∈ Finset.range N, z ^ i).im := (Complex.im_sum _ _).symm
      _ = 0 := by rw [hsum]; rfl

lemma flatMap_const_pair_zero (k : ℕ) :
    (List.range k).flatMap (fun (_ : ℕ) => [(0 : ℝ), 0]) = List.replicate (2 * k) 0 := by
  induction k with
  | zero => simp
  | succ k ih =>
    rw [List.range_succ, List.flatMap_append, ih,
      show 2 * (k + 1) = 2 * k + 2 from by ring, List.replicate_add]
    simp [List.replicate_succ]

/-- C3 (amended): `fit_fourier` on an everywhere-`c` value array returns
`a0 = c` always; the higher coefficients vanish for the uniform phase grid
`phi_i = i/N` whenever the order is below the sample count (for an arbitrary
phase array they equal `2c * mean(cos/sin(2 pi m phi))`, which need not be
near 0). -/
theorem c3_constant_fit (c : ℝ) (N k : ℕ) (hN : 0 < N) (hk : k < N) :
    fitFourier (uniformPhaseGrid N) (List.replicate N c) k =
      c :: List.replicate (2 * k) 0 := by
  have hNR : (0 : ℝ) < N := by exact_mod_cast hN
  have hlen : (uniformPhaseGrid N).length = N := by
    rw [uniformPhaseGrid, List.length_map, List.length_range]
  have hzip : (uniformPhaseGrid N).zip (List.replicate N c) =
      (List.range N).map (fun (i : ℕ) => ((i : ℝ) / N, c)) := by
    have hrep : List.replicate N c = (List.range N).map (fun (_ : ℕ) => c) := by
      rw [List.map_const', List.length_range]
    rw [uniformPhaseGrid, hrep, List.zip_map']
  simp only [fitFourier]
  rw [if_neg (by rw [hlen]; omega)]
  simp only [List.cons.injEq]
  constructor
  · rw [List.sum_replicate, hlen, nsmul_eq_mul]
    field_simp
  · rw [← flatMap_const_pair_zero k]
    apply List.flatMap_congr
    intro j hj
    rw [List.mem_range] at hj
    have hcs := sum_cos_sin_grid_eq_zero N (j + 1) (Nat.succ_pos j) (by omega)
    have hcos := hcs.1
    have hsin := hcs.2
    push_cast at hcos hsin
    have hcosSum : (((uniformPhaseGrid N).zip (List.replicate N c)).map
        (fun pv => pv.2 * Real.cos (2 * Real.pi * ((j : ℝ) + 1) * pv.1))).sum = 0 := by
      rw [hzip, List.map_map, list_range_map_sum]
      rw [show (∑ i ∈ Finset.range N,
          ((fun pv : ℝ × ℝ => pv.2 * Real.cos (2 * Real.pi * ((j : ℝ) + 1) * pv.1)) ∘
            (fun (i : ℕ) => ((i : ℝ) / N, c))) i) =
          ∑ i ∈ Finset.range N, c * Real.cos (2 * Real.pi * ((j : ℝ) + 1) * ((i : ℝ) / N))
        from Finset.sum_congr rfl (fun i _ => rfl), ← Finset.mul_sum, hcos, mul_zero]
    have hsinSum : (((uniformPhaseGrid N).zip (List.replicate N c)).map
        (fun pv => pv.2 * Real.sin (2 * Real.pi * ((j : ℝ) + 1) * pv.1))).sum = 0 := by
      rw [hzip, List.map_map, list_range_map_sum]
      rw [show (∑ i ∈ Finset.range N,
          ((fun pv : ℝ × ℝ => pv.2 * Real.sin (2 * Real.pi * ((j : ℝ) + 1) * pv.1)) ∘
            (fun (i : ℕ) => ((i : ℝ) / N, c))) i) =
          ∑ i ∈ Finset.range N, c * Real.sin (2 * Real.pi * ((j : ℝ) + 1) * ((i : ℝ) / N))
        from Finset.sum_congr rfl (fun i _ => rfl), ← Finset.mul_sum, hsin, mul_zero]
    show [_ * _, _ * _] = [(0 : ℝ), 0]
    rw [hcosSum, hsinSum]
    norm_num

/-- C3 counterexample: with the constant value array `[1, 1]` and the phase
array `[0, 0]`, `fit_fourier` at order 1 returns `a1 = 2`, not approximately
0: higher coefficients do not vanish for an arbitrary phase array. -/
theorem c3_counterexample :
    fitFourier [0, 0] [1, 1] 1 = [1, 2, 0] ∧ (2 : ℝ) ≠ 0 := by
  refine ⟨?_, by norm_num⟩
  rw [fitFourier, if_neg (by norm_num)]
  norm_num [List.range_succ, List.zip, List.zipWith, mul_zero, Real.cos_zero, Real.sin_zero]

/-- C3 witness: two samples of the constant 3, one harmonic: the fit is
`[3, 0, 0]`. -/
theorem c3_constant_fit_witness :
    0 < 2 ∧ 1 < 2 ∧
    fitFourier (uniformPhaseGrid 2) (List.replicate 2 (3 : ℝ)) 1 =
      3 :: List.replicate 2 0 :=
  ⟨by norm_num, by norm_num, c3_constant_fit 3 2 1 (by norm_num) (by norm_num)⟩

/-! ## Kinematics evaluator and contact detector
(`rotation_xyz_degrees` .. `compute_foot_contacts`, lines 194-363) -/

/-- 4x4 matrices in the source's row-vector convention (points multiply on
the left, the translation sits in row 3). -/
def Mat4 : Type := Matrix (Fin 4) (Fin 4) ℝ

/-- The zero matrix the source uses to initialize `model` (line 251). -/
noncomputable def zeroMat4 : Mat4 := Matrix.of fun _ _ => 0

/-- Lines 233-238: `mat_mul`, the explicit 4-term row-by-column products. -/
noncomputable def matMul (a b : Mat4) : Mat4 :=
  Matrix.of fun i j => a i 0 * b 0 j + a i 1 * b 1 j + a i 2 * b 2 j + a i 3 * b 3 j

/-- Python `math.radians`. -/
noncomputable def radiansOf (deg : ℝ) : ℝ := deg * Real.pi / 180

/-- Lines 194-221: `rotation_xyz_degrees`: `R_z * (R_y * R_x)` from Euler
degrees. -/
noncomputable def rotationXYZDegrees (rx ry rz : ℝ) : Mat4 :=
  let cx := Real.cos (radiansOf rx)
  let sx := Real.sin (radiansOf rx)
  let cy := Real.cos (radiansOf ry)
  let sy := Real.sin (radiansOf ry)
  let cz := Real.cos (radiansOf rz)
  let sz := Real.sin (radiansOf rz)
  matMul !![cz, -sz, 0, 0; sz, cz, 0, 0; 0, 0, 1, 0; 0, 0, 0, 1]
    (matMul !![cy, 0, sy, 0; 0, 1, 0, 0; -sy, 0, cy, 0; 0, 0, 0, 1]
      !![1, 0, 0, 0; 0, cx, -sx, 0; 0, sx, cx, 0; 0, 0, 0, 1])

/-- Lines 224-230: `translation_matrix`. -/
noncomputable def translationMatrix (tx ty tz : ℝ) : Mat4 :=
  !![1, 0, 0, 0; 0, 1, 0, 0; 0, 0, 1, 0; tx, ty, tz, 1]

/-- Lines 241-247: `transform_point` (row vector times matrix). -/
noncomputable def transformPoint (m : Mat4) (p : ℝ × ℝ × ℝ) : ℝ × ℝ × ℝ :=
  (p.1 * m 0 0 + p.2.1 * m 1 0 + p.2.2 * m 2 0 + m 3 0,
   p.1 * m 0 1 + p.2.1 * m 1 1 + p.2.2 * m 2 1 + m 3 1,
   p.1 * m 0 2 + p.2.1 * m 1 2 + p.2.2 * m 2 2 + m 3 2)

/-- Lines 250-258: `build_model_transforms`: compose each local matrix with
its parent's world matrix in index order (root when `parent[i] < 0`). -/
noncomputable def buildModelTransforms (parent : List ℤ) (localMats : List Mat4) :
    List Mat4 :=
  (List.range localMats.length).foldl
    (fun model i =>
      let p := parent.getD i (-1)
      let mi := if p < 0 then localMats.getD i zeroMat4
        else matMul (model.getD p.toNat zeroMat4) (localMats.getD i zeroMat4)
      model.set i mi)
    (List.replicate localMats.length zeroMat4)

/-- The per-bone channel curves of a `bone_anims` entry (absent axis =
`None`, meaning hold the rest value). -/
structure BoneAnim where
  transX : Option (AnimationCurve ℝ)
  transY : Option (AnimationCurve ℝ)
  transZ : Option (AnimationCurve ℝ)
  rotX : Option (AnimationCurve ℝ)
  rotY : Option (AnimationCurve ℝ)
  rotZ : Option (AnimationCurve ℝ)

/-- The skeleton data returned by `parse_skeleton_humanoid8` (lines 185-191). -/
structure Skeleton where
  names : List String
  parent : List ℤ
  translations : List (ℝ × ℝ × ℝ)
  preRotations : List (ℝ × ℝ × ℝ)
  scale : ℝ

/-- Python `(curves.get(axis) or AnimationCurve([], [], default)).sample(t)`
(lines 294-298, 310-314). -/
noncomputable def sampleOr (c : Option (AnimationCurve ℝ)) (dflt : ℝ) (t : ℝ) : ℝ :=
  (c.getD (AnimationCurve.mk [] [] dflt)).sample t

/-- Line 292: the scaled rest translation; the root's rest is the origin. -/
noncomputable def restScaledOf (skel : Skeleton) (i : ℕ) : ℝ × ℝ × ℝ :=
  if i = 0 then (0, 0, 0)
  else
    let r := skel.translations.getD i (0, 0, 0)
    (r.1 * skel.scale, r.2.1 * skel.scale, r.2.2 * skel.scale)

/-- Lines 291-308: the local translation of bone `i` at time `t`: scaled rest
plus scaled animation delta, with the root's X and Z pinned to the rest value
when in-place mode is on. -/
noncomputable def localTranslation (anim : BoneAnim) (skel : Skeleton) (i : ℕ)
    (inPlace : Bool) (t : ℝ) : ℝ × ℝ × ℝ :=
  let restRaw := skel.translations.getD i (0, 0, 0)
  let restScaled := restScaledOf skel i
  let animRaw := (sampleOr anim.transX restRaw.1 t,
    sampleOr anim.transY restRaw.2.1 t, sampleOr anim.transZ restRaw.2.2 t)
  let delta := (animRaw.1 - restRaw.1, animRaw.2.1 - restRaw.2.1,
    animRaw.2.2 - restRaw.2.2)
  let trans := (restScaled.1 + delta.1 * skel.scale,
    restScaled.2.1 + delta.2.1 * skel.scale, restScaled.2.2 + delta.2.2 * skel.scale)
  if i = 0 ∧ inPlace = true then (restScaled.1, trans.2.1, restScaled.2.2) else trans

/-- Lines 310-319: the local rotation of bone `i` at time `t`: pre-rotation
times animated rotation, with the fixed 180-degree Y correction prepended at
the root. -/
noncomputable def localRotation (anim : BoneAnim) (skel : Skeleton) (i : ℕ)
    (t : ℝ) : Mat4 :=
  let animRot := (sampleOr anim.rotX 0 t, sampleOr anim.rotY 0 t, sampleOr anim.rotZ 0 t)
  let preRot := skel.preRotations.getD i (0, 0, 0)
  let rot := matMul (rotationXYZDegrees preRot.1 preRot.2.1 preRot.2.2)
    (rotationXYZDegrees animRot.1 animRot.2.1 animRot.2.2)
  if i = 0 then matMul (rotationXYZDegrees 0 180 0) rot else rot

/-- Line 321: the local matrix, `translation_matrix(trans) * rot`. -/
noncomputable def localMatrix (anim : BoneAnim) (skel : Skeleton) (i : ℕ)
    (inPlace : Bool) (t : ℝ) : Mat4 :=
  let tr := localTranslation anim skel i inPlace t
  matMul (translationMatrix tr.1 tr.2.1 tr.2.2) (localRotation anim skel i t)

/-- Lines 285-322: the list of local matrices at a sample time, one per bone
in skeleton order (`bone_anims.get(name, {})` modelled by the total map). -/
noncomputable def footLocals (boneAnims : String → BoneAnim) (skel : Skeleton)
    (inPlace : Bool) (t : ℝ) : List Mat4 :=
  (List.range skel.names.length).map (fun (i : ℕ) =>
    localMatrix (boneAnims (skel.names.getD i "")) skel i inPlace t)

/-- Line 270: the `name_to_index` dict built by comprehension: a repeated
name keeps its last index. -/
def nameIndexOf (names : List String) (n : String) : ℕ :=
  (List.range names.length).foldl
    (fun acc i => if names.getD i "" = n then i else acc) 0

/-- Lines 324-326: the world position of the bone at `index` at time `t`. -/
noncomputable def footPosition (boneAnims : String → BoneAnim) (skel : Skeleton)
    (inPlace : Bool) (index : ℕ) (t : ℝ) : ℝ × ℝ × ℝ :=
  transformPoint
    ((buildModelTransforms skel.parent (footLocals boneAnims skel inPlace t)).getD
      index zeroMat4) (0, 0, 0)

/-- Python `max(list)` over reals (the source guards nonemptiness). -/
noncomputable def maxOfR : List ℝ → ℝ
  | [] => 0
  | x :: xs => xs.foldl max x

/-- Lines 328-357: `compute_weights`: percentile band, velocity proxy,
per-sample score and centered moving-average smoothing. -/
noncomputable def computeWeights (positions : List (ℝ × ℝ × ℝ)) : List ℝ :=
  let ys := positions.map (fun p => p.2.1)
  if ys = [] then []
  else
    let sortedY := ys.insertionSort (· ≤ ·)
    let yMin := sortedY.getD
      (max 0 (pyTrunc ((sortedY.length : ℚ) * (5 / 100)) - 1)).toNat 0
    let yMax := sortedY.getD
      (min (sortedY.length - 1) (pyTrunc ((sortedY.length : ℚ) * (95 / 100))).toNat) 0
    let heightRange := max (yMax - yMin) (1 / 10000)
    let heightThresh := max (heightRange * (15 / 100)) (1 / 100)
    let velocities := 0 :: ((ys.tail.zip ys).map
      (fun pr => (pr.1 - pr.2) * (ys.length : ℝ)))
    let velAbs := velocities.map abs
    let velMax := if velAbs ≠ [] then maxOfR velAbs else 1 / 10000
    let velThresh := max (velMax * (25 / 100)) (5 / 100)
    let weights := (ys.zip velocities).map (fun pr =>
      max 0 (min 1 (1 - (pr.1 - yMin) / heightThresh)) *
        max 0 (min 1 (1 - |pr.2| / velThresh)))
    (List.range weights.length).map (fun (i : ℕ) =>
      ((weights.drop (i - 5)).take (min weights.length (i + 5 + 1) - (i - 5))).sum /
        ((min weights.length (i + 5 + 1) - (i - 5) : ℕ) : ℝ))

/-- Lines 261-363: `compute_foot_contacts`. The Python function returns a
2-tuple `([], [])` from the missing-feet guard and a 4-tuple
`(left_weights, right_weights, left_y, right_y)` otherwise; the returned
tuple is modelled as the list of its components so the two arities coexist. -/
noncomputable def computeFootContacts (boneAnims : String → BoneAnim)
    (skel : Skeleton) (tSamples : List ℝ) (inPlace : Bool) : List (List ℝ) :=
  if "mixamorig:LeftFoot" ∉ skel.names ∨ "mixamorig:RightFoot" ∉ skel.names then
    [[], []]
  else
    let leftIndex := nameIndexOf skel.names "mixamorig:LeftFoot"
    let rightIndex := nameIndexOf skel.names "mixamorig:RightFoot"
    let leftPositions := tSamples.map (footPosition boneAnims skel inPlace leftIndex)
    let rightPositions := tSamples.map (footPosition boneAnims skel inPlace rightIndex)
    [computeWeights leftPositions, computeWeights rightPositions,
      leftPositions.map (fun p => p.2.1), rightPositions.map (fun p => p.2.1)]

/-- Python tuple unpacking `a, b, c, d = e` (line 544): succeeds only when
the tuple has exactly 4 components; any other arity raises `ValueError` and
aborts the pipeline. -/
def unpack4 {α : Type} : List α → Option (α × α × α × α)
  | [a, b, c, d] => some (a, b, c, d)
  | _ => none

/-- C1 (code-bug evidence): for a skeleton whose names lack the feet,
`compute_foot_contacts` returns the 2-component tuple `([], [])`, so the
4-name unpacking at its only call site fails: the pipeline raises
`ValueError` instead of continuing with empty contact signals. -/
theorem c1_missing_feet_returns_pair :
    computeFootContacts (fun _ => ⟨none, none, none, none, none, none⟩)
      ⟨["mixamorig:Hips"], [-1], [(0, 0, 0)], [(0, 0, 0)], 1⟩ [0] true = [[], []] ∧
    unpack4 (computeFootContacts (fun _ => ⟨none, none, none, none, none, none⟩)
      ⟨["mixamorig:Hips"], [-1], [(0, 0, 0)], [(0, 0, 0)], 1⟩ [0] true) = none := by
  have h : computeFootContacts (fun _ => ⟨none, none, none, none, none, none⟩)
      ⟨["mixamorig:Hips"], [-1], [(0, 0, 0)], [(0, 0, 0)], 1⟩ [0] true = [[], []] := by
    rw [computeFootContacts, if_pos]
    left
    simp
  exact ⟨h, by rw [h]; rfl⟩

/-- C9: with in-place mode requested, the root bone's local translation has
its X and Z components pinned to the evaluator's root rest value (the origin,
line 292) at every sample time; only the Y component follows the animated
curve (rest plus scaled animation delta). -/
theorem c9_in_place_pins_root_xz (anim : BoneAnim) (skel : Skeleton) (t : ℝ) :
    (localTranslation anim skel 0 true t).1 = (restScaledOf skel 0).1 ∧
    (localTranslation anim skel 0 true t).2.2 = (restScaledOf skel 0).2.2 ∧
    (localTranslation anim skel 0 true t).2.1 =
      (restScaledOf skel 0).2.1 +
        (sampleOr anim.transY (skel.translations.getD 0 (0, 0, 0)).2.1 t -
          (skel.translations.getD 0 (0, 0, 0)).2.1) * skel.scale := by
  unfold localTranslation
  simp

end FitMotion
